import Mathlib

/-!
Verification of the symbol-search core of the `oh-my-navigation` editor
extension.  The development shallowly embeds the relevant TypeScript
sources:

* `src/symbolSearch.ts` — symbol-type precedence table, `runRipgrep`
  failure handling, the `path:line:col:text` output parser, the
  `extractSymbol` capture-group heuristic and the dedup step of
  `findSymbols`;
* `src/utils/recency-tracker.ts` — the `RecencyTracker` entry map,
  `recordAccess`, `prune` and `getScore`;
* `src/commands/search-symbols.ts` and `src/commands/searchSymbols.ts` —
  the `onDidChangeValue` ranking pipeline and
  `compareSymbolQuickPickItems`.

JavaScript `Map` objects are modelled as insertion-ordered association
lists, JavaScript `Array.prototype.sort` (stable per the ECMAScript
specification) as `List.insertionSort`, exact numeric computation over
`ℚ`, and the floating-point scoring formula of `getScore` over `ℝ`
(with `Math.pow` as `Real.rpow`).
-/

namespace OhMyNav

/-! ### JavaScript `Map` as an insertion-ordered association list -/

/-- Model of a JavaScript `Map` with string keys: a list of bindings in
insertion order. -/
abbrev JsMap (α : Type) : Type := List (String × α)

/-- Model of `Map.prototype.get`: the first binding for the key. -/
def jsMapGet {α : Type} (m : JsMap α) (k : String) : Option α :=
  match m with
  | [] => none
  | (k', v) :: rest => if k' = k then some v else jsMapGet rest k

/-- Model of `Map.prototype.set`: update an existing binding in place
(keeping its position), otherwise append a new binding. -/
def jsMapSet {α : Type} (m : JsMap α) (k : String) (v : α) : JsMap α :=
  match m with
  | [] => [(k, v)]
  | (k', v') :: rest =>
      if k' = k then (k', v) :: rest else (k', v') :: jsMapSet rest k v

/-- Model of `Map.prototype.delete`. -/
def jsMapDelete {α : Type} (m : JsMap α) (k : String) : JsMap α :=
  match m with
  | [] => []
  | (k', v') :: rest => if k' = k then rest else (k', v') :: jsMapDelete rest k

/-- Well-formedness of the map model: keys are pairwise distinct, as in a
real JavaScript `Map`. -/
def JsMapWF {α : Type} (m : JsMap α) : Prop := (m.map Prod.fst).Nodup

theorem jsMapGet_set_self {α : Type} (m : JsMap α) (k : String) (v : α) :
    jsMapGet (jsMapSet m k v) k = some v := by
  induction m with
  | nil => simp [jsMapGet, jsMapSet]
  | cons hd tl ih =>
      obtain ⟨k', v'⟩ := hd
      by_cases h : k' = k <;> simp [jsMapGet, jsMapSet, h, ih]

theorem jsMapGet_set_ne {α : Type} (m : JsMap α) (k k' : String) (v : α)
    (h : k ≠ k') : jsMapGet (jsMapSet m k v) k' = jsMapGet m k' := by
  induction m with
  | nil => simp [jsMapGet, jsMapSet, h]
  | cons hd tl ih =>
      obtain ⟨k₀, v₀⟩ := hd
      by_cases h₀ : k₀ = k
      · subst h₀
        simp [jsMapGet, jsMapSet, h]
      · simp only [jsMapSet, if_neg h₀]
        by_cases h₁ : k₀ = k' <;> simp [jsMapGet, h₁, ih]

theorem jsMapSet_keys {α : Type} (m : JsMap α) (k : String) (v : α) :
    (jsMapSet m k v).map Prod.fst =
      if k ∈ m.map Prod.fst then m.map Prod.fst else m.map Prod.fst ++ [k] := by
  induction m with
  | nil => simp [jsMapSet]
  | cons hd tl ih =>
      obtain ⟨k₀, v₀⟩ := hd
      by_cases h₀ : k₀ = k
      · subst h₀
        simp [jsMapSet]
      · have : ¬ k = k₀ := fun h => h₀ h.symm
        simp only [jsMapSet, if_neg h₀, List.map_cons, List.mem_cons, this,
          false_or]
        rw [ih]
        by_cases hmem : k ∈ tl.map Prod.fst <;> simp [hmem]

theorem jsMapSet_wf {α : Type} (m : JsMap α) (k : String) (v : α)
    (h : JsMapWF m) : JsMapWF (jsMapSet m k v) := by
  unfold JsMapWF
  rw [jsMapSet_keys]
  by_cases hmem : k ∈ m.map Prod.fst
  · simpa [hmem] using h
  · simp only [hmem, if_false]
    rw [List.nodup_append]
    refine ⟨h, List.nodup_singleton _, ?_⟩
    intro a ha hak
    rw [List.mem_singleton] at hak
    exact hmem (hak ▸ ha)

theorem jsMapGet_eq_some_of_mem_wf {α : Type} {m : JsMap α} {k : String}
    {v : α} (hwf : JsMapWF m) (hmem : (k, v) ∈ m) : jsMapGet m k = some v := by
  induction m with
  | nil => cases hmem
  | cons hd tl ih =>
      obtain ⟨k₀, v₀⟩ := hd
      rcases List.mem_cons.mp hmem with h | h
      · obtain ⟨h₁, h₂⟩ := Prod.mk.injEq .. ▸ h
        simp_all [jsMapGet]
      · have hk : k₀ ≠ k := by
          intro hk
          subst hk
          have : k₀ ∈ tl.map Prod.fst := List.mem_map.mpr ⟨(k₀, v), h, rfl⟩
          exact (List.nodup_cons.mp hwf).1 this
        have htl : JsMapWF tl := (List.nodup_cons.mp hwf).2
        simp [jsMapGet, hk, ih htl h]

theorem mem_of_jsMapGet_eq_some {α : Type} {m : JsMap α} {k : String} {v : α}
    (h : jsMapGet m k = some v) : (k, v) ∈ m := by
  induction m with
  | nil => simp [jsMapGet] at h
  | cons hd tl ih =>
      obtain ⟨k₀, v₀⟩ := hd
      by_cases hk : k₀ = k
      · subst hk
        simp only [jsMapGet, if_pos rfl, if_true, Option.some.injEq] at h
        subst h
        exact List.mem_cons_self _ _
      · simp only [jsMapGet, if_neg hk] at h
        exact List.mem_cons_of_mem _ (ih h)

/-! ### Symbol types and the precedence table (`src/symbolSearch.ts`) -/

/-- The `SymbolType` union of `symbolSearch.ts`. -/
inductive SymbolType : Type
  | «class»
  | function
  | method
  | «variable»
  | type
  | interface
  | zod
  | react
  | unknown
deriving DecidableEq, Repr

/-- The `symbolTypePrecedence` table of `symbolSearch.ts`. -/
def symbolTypePrecedence : SymbolType → Nat
  | .zod => 100
  | .«class» => 90
  | .interface => 80
  | .type => 70
  | .react => 60
  | .function => 50
  | .method => 40
  | .«variable» => 10
  | .unknown => 0

/-- One element of the result list built by `findSymbols`. -/
structure SymbolResult : Type where
  symbol : String
  file : String
  line : Nat
  type : SymbolType
deriving DecidableEq, Repr

/-- The dedup key `` `${item.file}:${item.line}:${item.symbol}` `` used by
`findSymbols`. -/
def dedupKey (o : SymbolResult) : String :=
  o.file ++ ":" ++ toString o.line ++ ":" ++ o.symbol

/-- One step of the dedup loop of `findSymbols`: keep the existing entry
unless the new item's type has strictly higher precedence. -/
def dedupStep (m : JsMap SymbolResult) (item : SymbolResult) :
    JsMap SymbolResult :=
  match jsMapGet m (dedupKey item) with
  | none => jsMapSet m (dedupKey item) item
  | some existing =>
      if symbolTypePrecedence existing.type < symbolTypePrecedence item.type
      then jsMapSet m (dedupKey item) item
      else m

/-- The dedup stage at the end of `findSymbols` (`symbolSearch.ts`,
lines 281–296): fold the results into a `Map` keyed by
`file:line:symbol` and return `Array.from(deduped.values())`. -/
def findSymbolsDedup (results : List SymbolResult) : List SymbolResult :=
  (results.foldl dedupStep []).map Prod.snd

/-! ### Characterisation of the dedup fold (claim C1) -/

/-- The decision `dedupStep` makes for a single key group: keep the current
winner unless the new occurrence has strictly higher precedence. -/
def dedupChoice : Option SymbolResult → SymbolResult → Option SymbolResult
  | none, o => some o
  | some b, o =>
      if symbolTypePrecedence b.type < symbolTypePrecedence o.type
      then some o else some b

/-- The occurrence `r` sits in `g` with every earlier occurrence of strictly
lower precedence and every later occurrence of no higher precedence: `r` is
the first-seen occurrence of maximal precedence in `g`. -/
def IsFirstMax (g : List SymbolResult) (r : SymbolResult) : Prop :=
  ∃ pre post, g = pre ++ r :: post ∧
    (∀ o ∈ pre, symbolTypePrecedence o.type < symbolTypePrecedence r.type) ∧
    (∀ o ∈ post, symbolTypePrecedence o.type ≤ symbolTypePrecedence r.type)

theorem jsMapGet_dedupStep (m : JsMap SymbolResult) (a : SymbolResult)
    (key : String) :
    jsMapGet (dedupStep m a) key =
      if dedupKey a = key then dedupChoice (jsMapGet m key) a
      else jsMapGet m key := by
  unfold dedupStep
  by_cases hk : dedupKey a = key
  · subst hk
    cases h : jsMapGet m (dedupKey a) with
    | none => simp [h, dedupChoice, jsMapGet_set_self]
    | some existing =>
        simp only [h, dedupChoice, if_pos rfl]
        by_cases hp :
            symbolTypePrecedence existing.type < symbolTypePrecedence a.type
        · simp [hp, jsMapGet_set_self]
        · simp [hp, h]
  · cases h : jsMapGet m (dedupKey a) with
    | none => simp [h, hk, jsMapGet_set_ne _ _ _ _ hk]
    | some existing =>
        by_cases hp :
            symbolTypePrecedence existing.type < symbolTypePrecedence a.type
        · simp [h, hp, hk, jsMapGet_set_ne _ _ _ _ hk]
        · simp [h, hp, hk]

theorem dedupStep_wf (m : JsMap SymbolResult) (a : SymbolResult)
    (h : JsMapWF m) : JsMapWF (dedupStep m a) := by
  unfold dedupStep
  cases hg : jsMapGet m (dedupKey a) with
  | none => exact jsMapSet_wf _ _ _ h
  | some existing =>
      simp only
      split
      · exact jsMapSet_wf _ _ _ h
      · exact h

theorem foldl_dedupStep_wf (l : List SymbolResult) (m : JsMap SymbolResult)
    (h : JsMapWF m) : JsMapWF (l.foldl dedupStep m) := by
  induction l generalizing m with
  | nil => exact h
  | cons a l ih => exact ih _ (dedupStep_wf _ _ h)

theorem jsMapGet_foldl_dedupStep (l : List SymbolResult)
    (m : JsMap SymbolResult) (key : String) :
    jsMapGet (l.foldl dedupStep m) key =
      (l.filter (fun o => decide (dedupKey o = key))).foldl dedupChoice
        (jsMapGet m key) := by
  induction l generalizing m with
  | nil => rfl
  | cons a l ih =>
      simp only [List.foldl_cons, List.filter_cons]
      rw [ih, jsMapGet_dedupStep]
      by_cases hk : dedupKey a = key
      · simp [hk]
      · simp [hk]

theorem dedupChoice_foldl_some (g : List SymbolResult) (b : SymbolResult) :
    ∃ r, g.foldl dedupChoice (some b) = some r ∧ IsFirstMax (b :: g) r := by
  induction g generalizing b with
  | nil => exact ⟨b, rfl, [], [], rfl, by simp, by simp⟩
  | cons o g ih =>
      by_cases h : symbolTypePrecedence b.type < symbolTypePrecedence o.type
      · obtain ⟨r, hr, pre, post, hg, hpre, hpost⟩ := ih o
        have hor : symbolTypePrecedence o.type ≤ symbolTypePrecedence r.type := by
          cases pre with
          | nil =>
              rw [List.nil_append] at hg
              injection hg with h₁ h₂
              rw [h₁]
          | cons p pre' =>
              rw [List.cons_append] at hg
              injection hg with h₁ h₂
              have := hpre p (List.mem_cons_self p pre')
              rw [← h₁] at this
              exact Nat.le_of_lt this
        have hbr : symbolTypePrecedence b.type < symbolTypePrecedence r.type :=
          Nat.lt_of_lt_of_le h hor
        refine ⟨r, ?_, b :: pre, post, ?_, ?_, hpost⟩
        · rw [List.foldl_cons,
            show dedupChoice (some b) o = some o from by simp [dedupChoice, h]]
          exact hr
        · rw [List.cons_append, hg]
        · intro x hx
          rcases List.mem_cons.mp hx with hx | hx
          · rw [hx]; exact hbr
          · exact hpre x hx
      · obtain ⟨r, hr, pre, post, hg, hpre, hpost⟩ := ih b
        have hstep : dedupChoice (some b) o = some b := by simp [dedupChoice, h]
        cases pre with
        | nil =>
            rw [List.nil_append] at hg
            injection hg with h₁ h₂
            refine ⟨r, ?_, [], o :: g, ?_, by simp, ?_⟩
            · rw [List.foldl_cons, hstep]; exact hr
            · rw [List.nil_append, ← h₁]
            · intro x hx
              rcases List.mem_cons.mp hx with hx | hx
              · rw [hx, ← h₁]; exact Nat.le_of_not_lt h
              · exact hpost x (h₂ ▸ hx)
        | cons p pre' =>
            rw [List.cons_append] at hg
            injection hg with h₁ h₂
            have hbr : symbolTypePrecedence b.type < symbolTypePrecedence r.type := by
              have := hpre p (List.mem_cons_self p pre')
              rw [← h₁] at this
              exact this
            refine ⟨r, ?_, b :: o :: pre', post, ?_, ?_, hpost⟩
            · rw [List.foldl_cons, hstep]; exact hr
            · rw [List.cons_append, List.cons_append, h₂]
            · intro x hx
              rcases List.mem_cons.mp hx with hx | hx
              · rw [hx]; exact hbr
              rcases List.mem_cons.mp hx with hx | hx
              · rw [hx]; exact Nat.lt_of_le_of_lt (Nat.le_of_not_lt h) hbr
              · exact hpre x (List.mem_cons_of_mem p hx)

theorem dedupChoice_foldl_none (g : List SymbolResult) (hne : g ≠ []) :
    ∃ r, g.foldl dedupChoice none = some r ∧ IsFirstMax g r := by
  cases g with
  | nil => exact absurd rfl hne
  | cons a g =>
      obtain ⟨r, hr, hfm⟩ := dedupChoice_foldl_some g a
      exact ⟨r, by simpa [dedupChoice] using hr, hfm⟩

theorem IsFirstMax.mem {g : List SymbolResult} {r : SymbolResult}
    (h : IsFirstMax g r) : r ∈ g := by
  obtain ⟨pre, post, hg, -, -⟩ := h
  rw [hg]
  exact List.mem_append_right _ (List.mem_cons_self _ _)

/-! ### Injectivity of the dedup key for colon-free symbol names -/

theorem colonSplit_inj : ∀ (x y u v : List Char), ':' ∉ x → ':' ∉ y →
    x ++ ':' :: u = y ++ ':' :: v → x = y ∧ u = v := by
  intro x
  induction x with
  | nil =>
      intro y u v _ hy h
      cases y with
      | nil => simpa using h
      | cons d y =>
          obtain ⟨h₁, -⟩ := List.cons.injEq .. ▸ h
          exact absurd (h₁ ▸ List.mem_cons_self d y) hy
  | cons c x ih =>
      intro y u v hx hy h
      cases y with
      | nil =>
          obtain ⟨h₁, -⟩ := List.cons.injEq .. ▸ h
          exact absurd (h₁ ▸ List.mem_cons_self c x) hx
      | cons d y =>
          obtain ⟨h₁, h₂⟩ := List.cons.injEq .. ▸ h
          obtain ⟨h₃, h₄⟩ := ih y u v (fun hm => hx (List.mem_cons_of_mem _ hm))
            (fun hm => hy (List.mem_cons_of_mem _ hm)) h₂
          exact ⟨by rw [h₁, h₃], h₄⟩

/-- Numeric value of an ASCII digit character. -/
def digitVal (c : Char) : Nat := c.toNat - 48

/-- Evaluate a decimal digit string left to right starting from `a`. -/
def valFrom (a : Nat) (l : List Char) : Nat :=
  l.foldl (fun acc c => 10 * acc + digitVal c) a

theorem digitVal_digitChar : ∀ m, m < 10 → digitVal (Nat.digitChar m) = m := by
  decide

theorem digitChar_ne_colon (m : Nat) : Nat.digitChar m ≠ ':' := by
  have hsmall : ∀ n, n < 16 → Nat.digitChar n ≠ ':' := by decide
  by_cases h : m < 16
  · exact hsmall m h
  · have hstar : Nat.digitChar m = '*' := by
      unfold Nat.digitChar
      repeat rw [if_neg (by omega)]
    rw [hstar]
    decide

theorem toDigitsCore_no_colon (b : Nat) :
    ∀ (fuel n : Nat) (ds : List Char), ':' ∉ ds →
      ':' ∉ Nat.toDigitsCore b fuel n ds := by
  intro fuel
  induction fuel with
  | zero =>
      intro n ds h
      simpa [Nat.toDigitsCore] using h
  | succ fuel ih =>
      intro n ds h
      unfold Nat.toDigitsCore
      have hcons : ':' ∉ Nat.digitChar (n % b) :: ds := by
        intro hm
        rcases List.mem_cons.mp hm with hm | hm
        · exact digitChar_ne_colon _ hm.symm
        · exact h hm
      dsimp only
      split
      · exact hcons
      · exact ih _ _ hcons

theorem valFrom_toDigitsCore :
    ∀ (fuel n : Nat) (ds : List Char), n < fuel →
      valFrom 0 (Nat.toDigitsCore 10 fuel n ds) = valFrom n ds := by
  intro fuel
  induction fuel with
  | zero =>
      intro n ds h
      exact absurd h (Nat.not_lt_zero n)
  | succ fuel ih =>
      intro n ds h
      unfold Nat.toDigitsCore
      dsimp only
      split
      · rename_i hdiv
        have hn : n < 10 := (Nat.div_eq_zero_iff (by norm_num)).mp hdiv
        have : valFrom 0 (Nat.digitChar (n % 10) :: ds) =
            valFrom (n % 10) ds := by
          simp [valFrom, List.foldl_cons, digitVal_digitChar _ (Nat.mod_lt n (by norm_num))]
        rw [this, Nat.mod_eq_of_lt hn]
      · rename_i hdiv
        have h10 : 10 ≤ n := by
          by_contra hlt
          exact hdiv ((Nat.div_eq_zero_iff (by norm_num)).mpr (Nat.lt_of_not_le hlt))
        have hlt : n / 10 < fuel := by
          have h₁ : n / 10 < n := Nat.div_lt_self (by omega) (by norm_num)
          omega
        rw [ih _ _ hlt]
        have : valFrom (n / 10) (Nat.digitChar (n % 10) :: ds) =
            valFrom (10 * (n / 10) + n % 10) ds := by
          simp [valFrom, List.foldl_cons, digitVal_digitChar _ (Nat.mod_lt n (by norm_num))]
        rw [this, Nat.div_add_mod]

theorem valFrom_natRepr (n : Nat) : valFrom 0 (Nat.repr n).data = n := by
  show valFrom 0 (Nat.toDigitsCore 10 (n + 1) n []) = n
  rw [valFrom_toDigitsCore _ _ _ (Nat.lt_succ_self n)]
  rfl

theorem natRepr_injective {a b : Nat} (h : Nat.repr a = Nat.repr b) : a = b := by
  have := congrArg (fun s => valFrom 0 s.data) h
  simpa [valFrom_natRepr] using this

theorem natRepr_no_colon (n : Nat) : ':' ∉ (Nat.repr n).data := by
  show ':' ∉ Nat.toDigitsCore 10 (n + 1) n []
  exact toDigitsCore_no_colon 10 _ _ [] (by simp)

theorem dedupKey_data (o : SymbolResult) :
    (dedupKey o).data =
      o.file.data ++ ':' :: ((Nat.repr o.line).data ++ ':' :: o.symbol.data) := by
  show (o.file ++ ":" ++ toString o.line ++ ":" ++ o.symbol).data = _
  simp [String.data_append]
  rfl

theorem reverse_colon_shape (f d s : List Char) :
    (f ++ ':' :: (d ++ ':' :: s)).reverse =
      s.reverse ++ ':' :: (d.reverse ++ ':' :: f.reverse) := by
  simp

theorem dedupKey_eq_iff {a b : SymbolResult} (ha : ':' ∉ a.symbol.data)
    (hb : ':' ∉ b.symbol.data) :
    dedupKey a = dedupKey b ↔
      a.file = b.file ∧ a.line = b.line ∧ a.symbol = b.symbol := by
  constructor
  · intro h
    have hdata := congrArg String.data h
    rw [dedupKey_data, dedupKey_data] at hdata
    have hrev := congrArg List.reverse hdata
    rw [reverse_colon_shape, reverse_colon_shape] at hrev
    obtain ⟨hs, hrest⟩ := colonSplit_inj _ _ _ _
      (fun hm => ha (List.mem_reverse.mp hm))
      (fun hm => hb (List.mem_reverse.mp hm)) hrev
    obtain ⟨hd, hf⟩ := colonSplit_inj _ _ _ _
      (fun hm => natRepr_no_colon a.line (List.mem_reverse.mp hm))
      (fun hm => natRepr_no_colon b.line (List.mem_reverse.mp hm)) hrest
    refine ⟨String.ext (List.reverse_injective hf), ?_,
      String.ext (List.reverse_injective hs)⟩
    exact natRepr_injective (String.ext (List.reverse_injective hd))
  · rintro ⟨h₁, h₂, h₃⟩
    unfold dedupKey
    rw [h₁, h₂, h₃]

theorem dedupKey_eq_of_triple {a b : SymbolResult} (h₁ : a.file = b.file)
    (h₂ : a.line = b.line) (h₃ : a.symbol = b.symbol) :
    dedupKey a = dedupKey b := by
  unfold dedupKey
  rw [h₁, h₂, h₃]

theorem filter_split {α : Type} {p : α → Bool} :
    ∀ {l g₁ g₂ : List α} {r : α}, l.filter p = g₁ ++ r :: g₂ →
      ∃ pre post, l = pre ++ r :: post ∧ pre.filter p = g₁ ∧
        post.filter p = g₂ := by
  intro l
  induction l with
  | nil =>
      intro g₁ g₂ r h
      simp at h
  | cons a l ih =>
      intro g₁ g₂ r h
      by_cases hp : p a
      · rw [List.filter_cons_of_pos hp] at h
        cases g₁ with
        | nil =>
            obtain ⟨h₁, h₂⟩ := List.cons.injEq .. ▸ h
            subst h₁
            exact ⟨[], l, rfl, rfl, by simpa using h₂⟩
        | cons x g₁' =>
            obtain ⟨h₁, h₂⟩ := List.cons.injEq .. ▸ h
            subst h₁
            obtain ⟨pre, post, hl, hpre, hpost⟩ := ih h₂
            exact ⟨a :: pre, post, by rw [hl, List.cons_append],
              by rw [List.filter_cons_of_pos hp, hpre], hpost⟩
      · rw [List.filter_cons_of_neg hp] at h
        obtain ⟨pre, post, hl, hpre, hpost⟩ := ih h
        exact ⟨a :: pre, post, by rw [hl, List.cons_append],
          by rw [List.filter_cons_of_neg hp, hpre], hpost⟩

theorem foldl_dedupStep_value_key {l : List SymbolResult} {k : String}
    {v : SymbolResult} (hmem : (k, v) ∈ l.foldl dedupStep []) :
    jsMapGet (l.foldl dedupStep []) k = some v ∧ dedupKey v = k ∧ v ∈ l := by
  have hwf : JsMapWF (l.foldl dedupStep []) :=
    foldl_dedupStep_wf l [] (by simp [JsMapWF])
  have hget : jsMapGet (l.foldl dedupStep []) k = some v :=
    jsMapGet_eq_some_of_mem_wf hwf hmem
  have hchar := hget
  rw [jsMapGet_foldl_dedupStep] at hchar
  simp only [jsMapGet] at hchar
  have hne : (l.filter (fun o => decide (dedupKey o = k))) ≠ [] := by
    intro hnil
    rw [hnil] at hchar
    simp at hchar
  obtain ⟨r, hr, hfm⟩ := dedupChoice_foldl_none _ hne
  rw [hr] at hchar
  obtain rfl : r = v := by simpa using hchar
  have hrmem := hfm.mem
  rw [List.mem_filter] at hrmem
  exact ⟨hget, of_decide_eq_true hrmem.2, hrmem.1⟩

/-- C1: `findSymbols` deduplication returns at most one occurrence per
distinct `(file, line, symbolName)` key; the retained occurrence of each
group is the one of highest `symbolTypePrecedence`, with ties resolved in
favour of the first-seen occurrence; and every input key is represented.
The symbol names of the input are assumed colon-free, as guaranteed by
`extractSymbol` (they match `^[A-Za-z_][A-Za-z0-9_]*$`). -/
theorem findSymbolsDedup_canonical (l : List SymbolResult)
    (hcf : ∀ o ∈ l, ':' ∉ o.symbol.data) :
    (List.Pairwise (fun a b =>
        ¬(a.file = b.file ∧ a.line = b.line ∧ a.symbol = b.symbol))
      (findSymbolsDedup l)) ∧
    (∀ r ∈ findSymbolsDedup l, r ∈ l ∧
      (∀ o ∈ l, o.file = r.file → o.line = r.line → o.symbol = r.symbol →
        symbolTypePrecedence o.type ≤ symbolTypePrecedence r.type) ∧
      (∃ pre post, l = pre ++ r :: post ∧ ∀ o ∈ pre,
        o.file = r.file → o.line = r.line → o.symbol = r.symbol →
        symbolTypePrecedence o.type < symbolTypePrecedence r.type)) ∧
    (∀ o ∈ l, ∃ r ∈ findSymbolsDedup l,
      o.file = r.file ∧ o.line = r.line ∧ o.symbol = r.symbol) := by
  have hwf : JsMapWF (l.foldl dedupStep []) :=
    foldl_dedupStep_wf l [] (by simp [JsMapWF])
  refine ⟨?_, ?_, ?_⟩
  · -- pairwise distinct (file, line, symbol) triples
    unfold findSymbolsDedup
    rw [List.pairwise_map]
    have hkeys : List.Pairwise (fun x y : String × SymbolResult => x.1 ≠ y.1)
        (l.foldl dedupStep []) := by
      have h' : List.Pairwise Ne ((l.foldl dedupStep []).map Prod.fst) := hwf
      exact List.pairwise_map.mp h'
    refine hkeys.imp_of_mem ?_
    intro x y hx hy hne htriple
    obtain ⟨-, hkx, -⟩ := foldl_dedupStep_value_key hx
    obtain ⟨-, hky, -⟩ := foldl_dedupStep_value_key hy
    exact hne (by rw [← hkx, ← hky,
      dedupKey_eq_of_triple htriple.1 htriple.2.1 htriple.2.2])
  · -- each retained occurrence is the first-seen max-precedence one
    intro r hr
    unfold findSymbolsDedup at hr
    obtain ⟨⟨k, v⟩, hmem, rfl⟩ := List.mem_map.mp hr
    obtain ⟨hget, hkey, hrl⟩ := foldl_dedupStep_value_key hmem
    have hchar := hget
    rw [jsMapGet_foldl_dedupStep] at hchar
    simp only [jsMapGet] at hchar
    have hne : (l.filter (fun o => decide (dedupKey o = k))) ≠ [] := by
      intro hnil
      rw [hnil] at hchar
      simp at hchar
    obtain ⟨r', hr', hfm⟩ := dedupChoice_foldl_none _ hne
    rw [hr'] at hchar
    obtain rfl : r' = (k, v).2 := by simpa using hchar
    obtain ⟨gpre, gpost, hgeq, hgpre, hgpost⟩ := hfm
    refine ⟨hrl, ?_, ?_⟩
    · intro o ho h₁ h₂ h₃
      have hok : dedupKey o = k := hkey ▸ dedupKey_eq_of_triple h₁ h₂ h₃
      have hmemg : o ∈ l.filter (fun o => decide (dedupKey o = k)) :=
        List.mem_filter.mpr ⟨ho, decide_eq_true hok⟩
      rw [hgeq] at hmemg
      rcases List.mem_append.mp hmemg with h | h
      · exact Nat.le_of_lt (hgpre o h)
      rcases List.mem_cons.mp h with h | h
      · exact le_of_eq (by rw [h])
      · exact hgpost o h
    · obtain ⟨pre, post, hl, hpre, -⟩ := filter_split hgeq
      refine ⟨pre, post, hl, ?_⟩
      intro o ho h₁ h₂ h₃
      have hok : dedupKey o = k := hkey ▸ dedupKey_eq_of_triple h₁ h₂ h₃
      have hmemp : o ∈ pre.filter (fun o => decide (dedupKey o = k)) :=
        List.mem_filter.mpr ⟨ho, decide_eq_true hok⟩
      exact hgpre o (hpre ▸ hmemp)
  · -- every input key is represented in the output
    intro o ho
    have hmemf : o ∈ l.filter (fun x => decide (dedupKey x = dedupKey o)) :=
      List.mem_filter.mpr ⟨ho, by simp⟩
    have hne : l.filter (fun x => decide (dedupKey x = dedupKey o)) ≠ [] := by
      intro hnil
      rw [hnil] at hmemf
      cases hmemf
    obtain ⟨r, hr, hfm⟩ := dedupChoice_foldl_none _ hne
    have hget : jsMapGet (l.foldl dedupStep []) (dedupKey o) = some r := by
      rw [jsMapGet_foldl_dedupStep]
      simpa [jsMapGet] using hr
    have hrfold : (dedupKey o, r) ∈ l.foldl dedupStep [] :=
      mem_of_jsMapGet_eq_some hget
    have hrout : r ∈ findSymbolsDedup l := by
      unfold findSymbolsDedup
      exact List.mem_map.mpr ⟨(dedupKey o, r), hrfold, rfl⟩
    have hrmem := hfm.mem
    rw [List.mem_filter] at hrmem
    have hkeq : dedupKey r = dedupKey o := of_decide_eq_true hrmem.2
    have htriple := (dedupKey_eq_iff (hcf r hrmem.1) (hcf o ho)).mp hkeq
    exact ⟨r, hrout, htriple.1.symm, htriple.2.1.symm, htriple.2.2.symm⟩

/-- Concrete input for the C1 witness: the same `(file, line, name)` seen as
a `function` match first and a `react` match second. -/
def c1Example : List SymbolResult :=
  [⟨"Foo", "src/App.tsx", 3, .function⟩, ⟨"Foo", "src/App.tsx", 3, .react⟩]

/-- Witness for C1 at a concrete input list and occurrence. -/
theorem findSymbolsDedup_canonical_witness :
    ∃ r ∈ findSymbolsDedup c1Example,
      "src/App.tsx" = r.file ∧ 3 = r.line ∧ "Foo" = r.symbol :=
  (findSymbolsDedup_canonical c1Example (by decide)).2.2
    ⟨"Foo", "src/App.tsx", 3, .function⟩ (by decide)

/-! ### extractSymbol (`symbolSearch.ts`, lines 164–188) -/

/-- The reserved-keyword list rejected by `extractSymbol`. -/
def extractKeywords : List String :=
  ["const", "let", "var", "function", "class", "type", "interface", "export"]

/-- Test of `/^[A-Za-z_][A-Za-z0-9_]*$/`: an ASCII letter or underscore
followed by ASCII letters, digits or underscores. -/
def isValidIdentifier (s : String) : Bool :=
  match s.data with
  | [] => false
  | c :: cs => (c.isAlpha || c == '_') && cs.all (fun d => d.isAlphanum || d == '_')

/-- One capture group passes the loop body's test: it is truthy
(JavaScript `match[i] &&`, so defined and non-empty), matches the
identifier regex, and is not a reserved keyword. -/
def groupAccepted : Option String → Bool
  | none => false
  | some s => (s != "") && isValidIdentifier s && !(extractKeywords.contains s)

/-- Scan a list of capture groups in order, returning the first accepted
one; the caller passes the groups reversed to model the
`for (let i = match.length - 1; i > 0; --i)` loop. -/
def scanGroups : List (Option String) → Option String
  | [] => none
  | g :: rest => if groupAccepted g then g else scanGroups rest

/-- `extractSymbol(line, regex)`, modelled on the result of
`line.match(regex)`: `none` when the regex does not match; otherwise the
match array `m` with `m[0]` the full match and `m[i]` (`i ≥ 1`) the
capture groups (`none` models an undefined group).  The loop scans the
groups from the last index down to index 1. -/
def extractSymbol (mres : Option (List (Option String))) : Option String :=
  match mres with
  | none => none
  | some m => scanGroups (m.drop 1).reverse

theorem isValidIdentifier_ne_empty {s : String}
    (h : isValidIdentifier s = true) : s ≠ "" := by
  intro he
  subst he
  simp [isValidIdentifier] at h

theorem groupAccepted_some_iff (t : String) :
    groupAccepted (some t) = true ↔
      isValidIdentifier t = true ∧ t ∉ extractKeywords := by
  unfold groupAccepted
  simp only [Bool.and_eq_true, bne_iff_ne, ne_eq, Bool.not_eq_true',
    show extractKeywords.contains t = List.elem t extractKeywords from rfl,
    List.elem_eq_mem, decide_eq_false_iff_not]
  constructor
  · rintro ⟨⟨-, h₂⟩, h₃⟩
    exact ⟨h₂, h₃⟩
  · rintro ⟨h₁, h₂⟩
    exact ⟨⟨isValidIdentifier_ne_empty h₁, h₁⟩, h₂⟩

theorem scanGroups_eq_some {l : List (Option String)} {s : String}
    (h : scanGroups l = some s) :
    groupAccepted (some s) = true ∧
      ∃ l₁ l₂, l = l₁ ++ some s :: l₂ ∧ ∀ o ∈ l₁, groupAccepted o = false := by
  induction l with
  | nil => simp [scanGroups] at h
  | cons g rest ih =>
      by_cases hg : groupAccepted g
      · rw [scanGroups, if_pos hg] at h
        subst h
        exact ⟨hg, [], rest, rfl, by simp⟩
      · rw [scanGroups, if_neg hg] at h
        obtain ⟨hacc, l₁, l₂, hl, hfail⟩ := ih h
        refine ⟨hacc, g :: l₁, l₂, by rw [hl, List.cons_append], ?_⟩
        intro o ho
        rcases List.mem_cons.mp ho with ho | ho
        · rw [ho]; exact Bool.not_eq_true _ ▸ hg
        · exact hfail o ho

theorem scanGroups_eq_none {l : List (Option String)}
    (h : ∀ o ∈ l, groupAccepted o = false) : scanGroups l = none := by
  induction l with
  | nil => rfl
  | cons g rest ih =>
      rw [scanGroups, if_neg ?_]
      · exact ih fun o ho => h o (List.mem_cons_of_mem _ ho)
      · rw [h g (List.mem_cons_self _ _)]
        simp

/-- C5: `extractSymbol` scans the capture groups from last to first and
returns the first (rightmost) group that is a syntactically valid
identifier and not one of the reserved keywords `const`, `let`, `var`,
`function`, `class`, `type`, `interface`, `export`; when the regex does
not match, or no capture group satisfies both conditions, it returns
`null`. -/
theorem extractSymbol_rightmost_valid :
    (extractSymbol none = none) ∧
    (∀ (m : List (Option String)) (s : String),
      extractSymbol (some m) = some s →
      isValidIdentifier s = true ∧ s ∉ extractKeywords ∧
      ∃ g₁ g₂, m.drop 1 = g₁ ++ some s :: g₂ ∧
        ∀ o ∈ g₂, ∀ t, o = some t →
          ¬(isValidIdentifier t = true ∧ t ∉ extractKeywords)) ∧
    (∀ (m : List (Option String)),
      (∀ o ∈ m.drop 1, ∀ t, o = some t →
        ¬(isValidIdentifier t = true ∧ t ∉ extractKeywords)) →
      extractSymbol (some m) = none) := by
  refine ⟨rfl, ?_, ?_⟩
  · intro m s h
    rw [extractSymbol] at h
    obtain ⟨hacc, l₁, l₂, hl, hfail⟩ := scanGroups_eq_some h
    obtain ⟨hval, hkw⟩ := (groupAccepted_some_iff s).mp hacc
    refine ⟨hval, hkw, l₂.reverse, l₁.reverse, ?_, ?_⟩
    · have := congrArg List.reverse hl
      rw [List.reverse_reverse] at this
      rw [this]
      simp
    · intro o ho t hot hcond
      have hmem : o ∈ l₁ := List.mem_reverse.mp ho
      have := hfail o hmem
      rw [hot] at this
      rw [(groupAccepted_some_iff t).mpr hcond] at this
      cases this
  · intro m hall
    rw [extractSymbol]
    refine scanGroups_eq_none ?_
    intro o ho
    have hmem : o ∈ m.drop 1 := List.mem_reverse.mp ho
    cases o with
    | none => rfl
    | some t =>
        rw [← Bool.not_eq_true]
        intro hacc
        exact hall _ hmem t rfl ((groupAccepted_some_iff t).mp hacc)

/-- Witness for C5: the match array of
`/\bfunction\s+([a-zA-Z0-9_]+)\s*\(/` applied to `"function foo() {"`. -/
theorem extractSymbol_rightmost_valid_witness :
    isValidIdentifier "foo" = true ∧ "foo" ∉ extractKeywords ∧
    ∃ g₁ g₂, [some "function foo(", some "foo"].drop 1 =
        g₁ ++ some "foo" :: g₂ ∧
      ∀ o ∈ g₂, ∀ t, o = some t →
        ¬(isValidIdentifier t = true ∧ t ∉ extractKeywords) :=
  extractSymbol_rightmost_valid.2.1 [some "function foo(", some "foo"] "foo"
    (by decide)

/-! ### runRipgrep (`symbolSearch.ts`, lines 30–58) -/

/-- Outcome of `child_process.execFileSync("rg", args, ...)`: a
successful exit with its captured stdout, or a thrown error whose
`stdout` property holds the captured output (`none` models an error
object with no captured stdout, e.g. a spawn failure). -/
inductive ExecOutcome : Type
  | success (stdout : String)
  | failure (stdout : Option String)

/-- JavaScript `String.prototype.split` with a single-character
separator, on the character list. -/
def splitOnChar (sep : Char) : List Char → List (List Char)
  | [] => [[]]
  | c :: rest =>
      match splitOnChar sep rest with
      | [] => if c = sep then [[], []] else [[c]]
      | h :: t => if c = sep then [] :: h :: t else (c :: h) :: t

/-- JavaScript `output.split("\n").filter(Boolean)`. -/
def splitLinesNonEmpty (out : String) : List String :=
  ((splitOnChar '\n' out.data).map (fun l => (⟨l⟩ : String))).filter
    (fun l => l != "")

/-- `runRipgrep` over the subprocess outcome: the `try` branch returns
the split stdout; the `catch` branch returns `err.stdout`'s lines when
`err.stdout` is truthy and `[]` otherwise. -/
def runRipgrep : ExecOutcome → List String
  | .success out => splitLinesNonEmpty out
  | .failure none => []
  | .failure (some out) => if out != "" then splitLinesNonEmpty out else []

/-- C6 counterexample: a failed invocation whose error captured output
does not yield the empty result — `runRipgrep` returns the captured
lines, contradicting "any other failure also yields an empty result". -/
theorem runRipgrep_failure_with_output_not_empty :
    runRipgrep (.failure (some "src/a.ts:1:1:class Foo")) =
      ["src/a.ts:1:1:class Foo"] ∧
    runRipgrep (.failure (some "src/a.ts:1:1:class Foo")) ≠ ([] : List String) := by
  refine ⟨?_, ?_⟩ <;> decide

/-- C6 (amended): `runRipgrep` returns a list for every subprocess
outcome instead of propagating the error (so no single pattern's failure
aborts the multi-pattern scan); a failure with no captured stdout — in
particular ripgrep's "no matches" exit — yields the empty list, and a
failure that captured stdout yields that output's non-empty lines. -/
theorem runRipgrep_failure_handling :
    (runRipgrep (.failure none) = []) ∧
    (∀ out, runRipgrep (.failure (some out)) = splitLinesNonEmpty out) ∧
    (∀ out, runRipgrep (.success out) = splitLinesNonEmpty out) := by
  refine ⟨rfl, ?_, fun _ => rfl⟩
  intro out
  by_cases h : out = ""
  · subst h
    rfl
  · simp [runRipgrep, h]

/-! ### The four-field output parse of `findSymbols`
(`symbolSearch.ts`, lines 262–277): `/^(.+?):(\d+):(\d+):(.*)$/` -/

/-- Match `(\d+):(\d+):(.*)$` against `t`: a maximal non-empty digit run,
a colon, a second maximal non-empty digit run, a colon, then the rest.
Backtracking inside `\d+` cannot help: a shorter run would have to be
followed by `:`, which is not a digit. -/
def matchTailCL (t : List Char) :
    Option (List Char × List Char × List Char) :=
  match t.dropWhile Char.isDigit with
  | ':' :: t2 =>
      if (t.takeWhile Char.isDigit).isEmpty then none
      else
        match t2.dropWhile Char.isDigit with
        | ':' :: rest =>
            if (t2.takeWhile Char.isDigit).isEmpty then none
            else some (t.takeWhile Char.isDigit, t2.takeWhile Char.isDigit, rest)
        | _ => none
  | _ => none

/-- The lazy `(.+?):` of the four-field regex: try the shortest non-empty
prefix `acc.reverse` before each `:`; if the tail does not match, extend
the prefix past that colon and continue. -/
def scanForPath (acc : List Char) :
    List Char → Option (List Char × List Char × List Char × List Char)
  | [] => none
  | c :: rest =>
      if c = ':' ∧ acc ≠ [] then
        match matchTailCL rest with
        | some (d1, d2, tl) => some (acc.reverse, d1, d2, tl)
        | none => scanForPath (c :: acc) rest
      else scanForPath (c :: acc) rest

/-- The four-field split `line.match(/^(.+?):(\d+):(\d+):(.*)$/)` used in
the line loop of `findSymbols`. -/
def parseRipgrepLine (line : String) :
    Option (String × String × String × String) :=
  match scanForPath [] line.data with
  | some (p, d1, d2, rest) => some (⟨p⟩, ⟨d1⟩, ⟨d2⟩, ⟨rest⟩)
  | none => none

/-- The per-line loop of `findSymbols`: a line failing the four-field
parse is skipped with `continue`. -/
def parseOutputLines (lines : List String) :
    List (String × String × String × String) :=
  lines.filterMap parseRipgrepLine

theorem dropWhile_digits_append (dl r : List Char)
    (h : ∀ c ∈ dl, c.isDigit) :
    (dl ++ ':' :: r).dropWhile Char.isDigit = ':' :: r ∧
      (dl ++ ':' :: r).takeWhile Char.isDigit = dl := by
  induction dl with
  | nil => simp [List.dropWhile, List.takeWhile]
  | cons c dl ih =>
      have hc : c.isDigit = true := h c (List.mem_cons_self _ _)
      have ihr := ih fun d hd => h d (List.mem_cons_of_mem _ hd)
      simp only [List.cons_append, List.dropWhile_cons, List.takeWhile_cons, hc,
        if_true]
      exact ⟨ihr.1, by rw [ihr.2]⟩

theorem matchTailCL_eq (d1 d2 rest : List Char) (h1 : d1 ≠ [])
    (hd1 : ∀ c ∈ d1, c.isDigit) (h2 : d2 ≠ []) (hd2 : ∀ c ∈ d2, c.isDigit) :
    matchTailCL (d1 ++ ':' :: (d2 ++ ':' :: rest)) = some (d1, d2, rest) := by
  obtain ⟨hdrop1, htake1⟩ := dropWhile_digits_append d1 (d2 ++ ':' :: rest) hd1
  obtain ⟨hdrop2, htake2⟩ := dropWhile_digits_append d2 rest hd2
  unfold matchTailCL
  simp only [hdrop1, htake1, hdrop2, htake2]
  simp [h1, h2, List.isEmpty_iff]

theorem scanForPath_append (p : List Char) :
    ∀ (acc rest : List Char), ':' ∉ p → (acc ≠ [] ∨ p ≠ []) →
      ∀ d1 d2 tl, matchTailCL rest = some (d1, d2, tl) →
      scanForPath acc (p ++ ':' :: rest) =
        some (acc.reverse ++ p, d1, d2, tl) := by
  induction p with
  | nil =>
      intro acc rest _ hne d1 d2 tl hmt
      have hacc : acc ≠ [] := by
        rcases hne with h | h
        · exact h
        · exact absurd rfl h
      rw [List.nil_append, scanForPath, if_pos ⟨rfl, hacc⟩, hmt,
        List.append_nil]
  | cons c p ih =>
      intro acc rest hcp hne d1 d2 tl hmt
      have hc : c ≠ ':' := fun h => hcp (h ▸ List.mem_cons_self c p)
      have hcond : ¬(c = ':' ∧ acc ≠ []) := fun h => hc h.1
      rw [List.cons_append, scanForPath, if_neg hcond,
        ih (c :: acc) rest (fun hm => hcp (List.mem_cons_of_mem _ hm))
          (Or.inl (by simp)) d1 d2 tl hmt]
      simp

theorem string_ne_empty_data {s : String} (h : s ≠ "") : s.data ≠ [] := by
  intro hd
  exact h (String.ext hd)

/-- C7: on every tool output line `path:line:col:matchedText` with a
colon-free non-empty path, non-empty decimal `line`/`col` fields and
arbitrary (possibly colon-containing) matched text, the four-field parse
of `findSymbols` recovers exactly the four fields; and a line that fails
the parse is skipped individually, leaving the processing of the
remaining lines unchanged.  (The newline-freeness hypotheses delimit the
domain on which the character scanner agrees with the JavaScript regex,
whose `.` does not match a newline; lines produced by
`split("\n")` always satisfy them.) -/
theorem parseRipgrepLine_fourfield
    (path lineNum colNum text : String)
    (hp : path ≠ "") (hpc : ':' ∉ path.data) (hpn : '\n' ∉ path.data)
    (hl : lineNum ≠ "") (hld : ∀ c ∈ lineNum.data, c.isDigit)
    (hc : colNum ≠ "") (hcd : ∀ c ∈ colNum.data, c.isDigit)
    (htn : '\n' ∉ text.data) :
    parseRipgrepLine (path ++ ":" ++ lineNum ++ ":" ++ colNum ++ ":" ++ text) =
      some (path, lineNum, colNum, text) ∧
    (∀ (line : String) (rest : List String), parseRipgrepLine line = none →
      parseOutputLines (line :: rest) = parseOutputLines rest) := by
  constructor
  · have hdata :
        (path ++ ":" ++ lineNum ++ ":" ++ colNum ++ ":" ++ text).data =
          path.data ++ ':' ::
            (lineNum.data ++ ':' :: (colNum.data ++ ':' :: text.data)) := by
      simp [String.data_append]
    unfold parseRipgrepLine
    rw [hdata, scanForPath_append path.data []
      (lineNum.data ++ ':' :: (colNum.data ++ ':' :: text.data)) hpc
      (Or.inr (string_ne_empty_data hp)) lineNum.data colNum.data text.data
      (matchTailCL_eq _ _ _ (string_ne_empty_data hl) hld
        (string_ne_empty_data hc) hcd)]
    rfl
  · intro line rest hnone
    unfold parseOutputLines
    rw [List.filterMap_cons, hnone]

/-- Witness for C7 on a concrete tool output line whose matched text
itself contains colons. -/
theorem parseRipgrepLine_fourfield_witness :
    parseRipgrepLine "src/a.ts:12:5:const x: Foo = y" =
      some ("src/a.ts", "12", "5", "const x: Foo = y") ∧
    (∀ (line : String) (rest : List String), parseRipgrepLine line = none →
      parseOutputLines (line :: rest) = parseOutputLines rest) :=
  parseRipgrepLine_fourfield "src/a.ts" "12" "5" "const x: Foo = y"
    (by decide) (by decide) (by decide) (by decide) (by decide) (by decide)
    (by decide) (by decide)

/-! ### RecencyTracker entry map (`src/utils/recency-tracker.ts`) -/

/-- A stored `RecencyEntry`. -/
structure RecencyEntry : Type where
  path : String
  lastAccessed : Nat
  accessCount : Nat
deriving DecidableEq, Repr

/-- The `MAX_ENTRIES` cap of `recency-tracker.ts`. -/
def MAX_ENTRIES : Nat := 1000

namespace RecencyTracker

/-- The key computed by `recordAccess`/`getScore`:
`` symbolName ? `${filePath}#${symbolName}` : filePath `` (an empty
symbol name is falsy in JavaScript). -/
def entryKey (filePath : String) (symbolName : Option String) : String :=
  match symbolName with
  | some s => if s ≠ "" then filePath ++ "#" ++ s else filePath
  | none => filePath

/-- The comparator of `prune`,
`(a, b) => a[1].lastAccessed - b[1].lastAccessed`: ascending by
`lastAccessed`. -/
def pruneLE (a b : String × RecencyEntry) : Prop :=
  a.2.lastAccessed ≤ b.2.lastAccessed

instance : DecidableRel pruneLE :=
  fun a b => inferInstanceAs (Decidable (_ ≤ _))

instance : IsTotal (String × RecencyEntry) pruneLE :=
  ⟨fun a b => Nat.le_total _ _⟩

instance : IsTrans (String × RecencyEntry) pruneLE :=
  ⟨fun _ _ _ => Nat.le_trans⟩

/-- `prune`: list the entries, sort ascending by `lastAccessed`
(`Array.prototype.sort` is stable, which `List.insertionSort` with a
total preorder implements), take the first `size - MAX_ENTRIES` as
`toRemove` and delete their keys from the map. -/
def prune (entries : JsMap RecencyEntry) : JsMap RecencyEntry :=
  let sorted := List.insertionSort pruneLE entries
  let toRemove := sorted.take (sorted.length - MAX_ENTRIES)
  toRemove.foldl (fun acc kv => jsMapDelete acc kv.1) entries

/-- `recordAccess` as a pure transition on the entry map, with
`Date.now()` passed in as `now`: look up the entry for the key (a fresh
entry starts from `lastAccessed = 0`, `accessCount = 0`), set
`lastAccessed = now`, increment `accessCount`, store it back, and prune
when the map has grown beyond `MAX_ENTRIES`. -/
def recordAccess (entries : JsMap RecencyEntry) (filePath : String)
    (symbolName : Option String) (now : Nat) : JsMap RecencyEntry :=
  let key := entryKey filePath symbolName
  let e0 := (jsMapGet entries key).getD ⟨filePath, 0, 0⟩
  let entries' := jsMapSet entries key ⟨e0.path, now, e0.accessCount + 1⟩
  if MAX_ENTRIES < entries'.length then prune entries' else entries'

/-- A sequence of `recordAccess` calls `(filePath, symbolName?, now)`. -/
def applyRecordAccesses (m : JsMap RecencyEntry)
    (calls : List (String × Option String × Nat)) : JsMap RecencyEntry :=
  calls.foldl (fun acc c => recordAccess acc c.1 c.2.1 c.2.2) m

theorem filter_wf {α : Type} (m : JsMap α) (p : String × α → Bool)
    (h : JsMapWF m) : JsMapWF (m.filter p) :=
  h.sublist ((List.filter_sublist m).map Prod.fst)

theorem filter_ne_key_eq_self {α : Type} (m : JsMap α) (k : String)
    (h : k ∉ m.map Prod.fst) : m.filter (fun kv => kv.1 != k) = m := by
  rw [List.filter_eq_self]
  intro kv hkv
  have : kv.1 ≠ k := fun he => h (he ▸ List.mem_map.mpr ⟨kv, hkv, rfl⟩)
  simpa using this

theorem jsMapDelete_eq_filter {α : Type} {m : JsMap α} (k : String)
    (h : JsMapWF m) : jsMapDelete m k = m.filter (fun kv => kv.1 != k) := by
  induction m with
  | nil => rfl
  | cons hd tl ih =>
      obtain ⟨k₀, v₀⟩ := hd
      obtain ⟨hk₀, htl⟩ := List.nodup_cons.mp h
      by_cases hk : k₀ = k
      · subst hk
        rw [jsMapDelete, if_pos rfl, List.filter_cons]
        simp only [bne_self_eq_false, Bool.false_eq_true, if_false]
        exact (filter_ne_key_eq_self tl k₀ hk₀).symm
      · rw [jsMapDelete, if_neg hk, List.filter_cons]
        have : ((k₀, v₀).1 != k) = true := by simpa using hk
        rw [this, if_pos rfl, ih htl]

theorem foldl_delete_eq_filter (rs : List (String × RecencyEntry)) :
    ∀ (m : JsMap RecencyEntry), JsMapWF m →
      rs.foldl (fun acc kv => jsMapDelete acc kv.1) m =
        m.filter (fun kv => !((rs.map Prod.fst).contains kv.1)) := by
  induction rs with
  | nil =>
      intro m _
      simp
  | cons r rs ih =>
      intro m hwf
      rw [List.foldl_cons, ih _ (by
        rw [jsMapDelete_eq_filter r.1 hwf]
        exact filter_wf _ _ hwf),
        jsMapDelete_eq_filter r.1 hwf, List.filter_filter]
      refine List.filter_congr ?_
      intro kv _
      simp only [List.map_cons, List.contains_cons, Bool.not_or, bne]
      rw [Bool.and_comm]

theorem jsMapSet_length_of_mem {α : Type} (m : JsMap α) (k : String) (v : α)
    (h : k ∈ m.map Prod.fst) : (jsMapSet m k v).length = m.length := by
  have := jsMapSet_keys m k v
  rw [if_pos h] at this
  have h₁ : ((jsMapSet m k v).map Prod.fst).length = (m.map Prod.fst).length :=
    by rw [this]
  simpa using h₁

theorem jsMapSet_append_of_not_mem {α : Type} (m : JsMap α) (k : String)
    (v : α) (h : k ∉ m.map Prod.fst) : jsMapSet m k v = m ++ [(k, v)] := by
  induction m with
  | nil => rfl
  | cons hd tl ih =>
      obtain ⟨k₀, v₀⟩ := hd
      have hk : k₀ ≠ k := by
        intro he
        exact h (he ▸ List.mem_map.mpr ⟨(k₀, v₀), List.mem_cons_self _ _, rfl⟩)
      rw [jsMapSet, if_neg hk, List.cons_append,
        ih (fun hm => h (List.mem_cons_of_mem _ hm))]

theorem contains_eq_decide_mem (l : List String) (a : String) :
    l.contains a = decide (a ∈ l) :=
  List.elem_eq_mem a l

theorem filter_not_contains_split {T D : List (String × RecencyEntry)}
    (hnodup : ((T ++ D).map Prod.fst).Nodup) :
    (T ++ D).filter (fun kv => !((T.map Prod.fst).contains kv.1)) = D := by
  rw [List.map_append, List.nodup_append] at hnodup
  rw [List.filter_append]
  have h₁ : T.filter (fun kv => !((T.map Prod.fst).contains kv.1)) = [] := by
    rw [List.filter_eq_nil_iff]
    intro kv hkv
    have hmem : kv.1 ∈ T.map Prod.fst := List.mem_map.mpr ⟨kv, hkv, rfl⟩
    simp [contains_eq_decide_mem, hmem]
  have h₂ : D.filter (fun kv => !((T.map Prod.fst).contains kv.1)) = D := by
    rw [List.filter_eq_self]
    intro kv hkv
    have hnm : kv.1 ∉ T.map Prod.fst := fun hmem =>
      hnodup.2.2 hmem (List.mem_map.mpr ⟨kv, hkv, rfl⟩)
    simp [contains_eq_decide_mem, hnm]
  rw [h₁, h₂, List.nil_append]

/-- Specification of `prune` on a well-formed map at or above the cap:
the result has exactly `MAX_ENTRIES` entries, is well-formed, is a
subset of the input, and every evicted entry has `lastAccessed` no later
than every retained entry. -/
theorem prune_spec (m : JsMap RecencyEntry) (hwf : JsMapWF m)
    (hlen : MAX_ENTRIES ≤ m.length) :
    (prune m).length = MAX_ENTRIES ∧ JsMapWF (prune m) ∧
    (∀ kv ∈ prune m, kv ∈ m) ∧
    (∀ kv ∈ m, kv ∉ prune m → ∀ kv' ∈ prune m,
      kv.2.lastAccessed ≤ kv'.2.lastAccessed) := by
  have hperm : List.Perm (List.insertionSort pruneLE m) m :=
    List.perm_insertionSort pruneLE m
  have hsort : List.Sorted pruneLE (List.insertionSort pruneLE m) :=
    List.sorted_insertionSort pruneLE m
  set s := List.insertionSort pruneLE m with hs
  set K := s.length - MAX_ENTRIES with hK
  have hsl : s.length = m.length := hperm.length_eq
  have hsplit : s.take K ++ s.drop K = s := List.take_append_drop K s
  have hnodup : (s.map Prod.fst).Nodup := (hperm.map Prod.fst).nodup_iff.mpr hwf
  have hres : prune m =
      m.filter (fun kv => !(((s.take K).map Prod.fst).contains kv.1)) := by
    unfold prune
    dsimp only
    rw [← hK]
    exact foldl_delete_eq_filter _ m hwf
  have hfd : s.filter (fun kv => !(((s.take K).map Prod.fst).contains kv.1)) =
      s.drop K := by
    have h' := filter_not_contains_split (T := s.take K) (D := s.drop K)
      (by rw [hsplit]; exact hnodup)
    rwa [hsplit] at h'
  have hfilter_perm : List.Perm (prune m) (s.drop K) := by
    rw [hres]
    exact hfd ▸ (hperm.filter _).symm
  refine ⟨?_, ?_, ?_, ?_⟩
  · rw [hfilter_perm.length_eq, List.length_drop, hsl]
    rw [hK, hsl]
    omega
  · rw [hres]
    exact filter_wf _ _ hwf
  · intro kv hkv
    rw [hres] at hkv
    exact (List.mem_filter.mp hkv).1
  · intro kv hkv hnot kv' hkv'
    have hkv'' : kv' ∈ s.drop K := hfilter_perm.mem_iff.mp hkv'
    have hkvs : kv ∈ s := hperm.mem_iff.mpr hkv
    have hkvtake : kv ∈ s.take K := by
      rcases List.mem_append.mp (hsplit ▸ hkvs) with h | h
      · exact h
      · exact absurd (hfilter_perm.mem_iff.mpr h) hnot
    have hpw := hsort
    unfold List.Sorted at hpw
    rw [← hsplit, List.pairwise_append] at hpw
    exact hpw.2.2 kv hkvtake kv' hkv''

theorem afterSet_step (m' : JsMap RecencyEntry) (hwf' : JsMapWF m')
    (hlen : m'.length ≤ MAX_ENTRIES + 1) :
    JsMapWF (if MAX_ENTRIES < m'.length then prune m' else m') ∧
    (if MAX_ENTRIES < m'.length then prune m' else m').length ≤ MAX_ENTRIES := by
  by_cases h : MAX_ENTRIES < m'.length
  · obtain ⟨hl, hw, -, -⟩ := prune_spec m' hwf' (Nat.le_of_lt h)
    rw [if_pos h]
    exact ⟨hw, Nat.le_of_eq hl⟩
  · rw [if_neg h]
    exact ⟨hwf', Nat.le_of_not_lt h⟩

theorem recordAccess_step (m : JsMap RecencyEntry) (fp : String)
    (sym : Option String) (now : Nat) (hwf : JsMapWF m)
    (hsize : m.length ≤ MAX_ENTRIES) :
    JsMapWF (recordAccess m fp sym now) ∧
      (recordAccess m fp sym now).length ≤ MAX_ENTRIES := by
  unfold recordAccess
  dsimp only
  refine afterSet_step _ (jsMapSet_wf _ _ _ hwf) ?_
  by_cases hmem : entryKey fp sym ∈ m.map Prod.fst
  · rw [jsMapSet_length_of_mem _ _ _ hmem]
    omega
  · rw [jsMapSet_append_of_not_mem _ _ _ hmem, List.length_append]
    simpa using hsize

/-- C4: after any sequence of `recordAccess` calls starting from a
well-formed entry map within the 1000-entry cap, the map never holds
more than `MAX_ENTRIES = 1000` entries; and when `prune` runs on a map
that exceeded the cap, it evicts oldest-by-`lastAccessed` entries first
— every evicted entry's `lastAccessed` is no later than every retained
entry's — until the count is back within the cap (it lands exactly on
`MAX_ENTRIES`). -/
theorem recencyTracker_cap_invariant :
    (∀ (m : JsMap RecencyEntry) (calls : List (String × Option String × Nat)),
      JsMapWF m → m.length ≤ MAX_ENTRIES →
      (applyRecordAccesses m calls).length ≤ MAX_ENTRIES) ∧
    (∀ m : JsMap RecencyEntry, JsMapWF m → MAX_ENTRIES < m.length →
      (prune m).length = MAX_ENTRIES ∧
      (∀ kv ∈ m, kv ∉ prune m → ∀ kv' ∈ prune m,
        kv.2.lastAccessed ≤ kv'.2.lastAccessed)) := by
  constructor
  · intro m calls
    induction calls generalizing m with
    | nil =>
        intro _ h
        exact h
    | cons c calls ih =>
        intro hwf hsize
        obtain ⟨hw, hs⟩ := recordAccess_step m c.1 c.2.1 c.2.2 hwf hsize
        exact ih _ hw hs
  · intro m hwf hlen
    obtain ⟨h₁, -, -, h₄⟩ := prune_spec m hwf (Nat.le_of_lt hlen)
    exact ⟨h₁, h₄⟩

/-- Witness for C4 on a concrete call sequence from the empty map. -/
theorem recencyTracker_cap_invariant_witness :
    (applyRecordAccesses [] [("src/a.ts", some "Foo", 5)]).length ≤
      MAX_ENTRIES :=
  recencyTracker_cap_invariant.1 [] [("src/a.ts", some "Foo", 5)]
    List.Pairwise.nil (by decide)

theorem orderedInsert_append_last (a x : String × RecencyEntry)
    (s : List (String × RecencyEntry)) (hax : pruneLE a x) :
    List.orderedInsert pruneLE a (s ++ [x]) =
      List.orderedInsert pruneLE a s ++ [x] := by
  induction s with
  | nil =>
      rw [List.nil_append]
      unfold List.orderedInsert
      rw [if_pos hax]
      rfl
  | cons b s ih =>
      rw [List.cons_append]
      unfold List.orderedInsert
      by_cases h : pruneLE a b
      · rw [if_pos h, if_pos h, List.cons_append, List.cons_append]
      · rw [if_neg h, if_neg h, ih, List.cons_append]

theorem insertionSort_append_last (l : List (String × RecencyEntry))
    (x : String × RecencyEntry) (h : ∀ y ∈ l, pruneLE y x) :
    List.insertionSort pruneLE (l ++ [x]) =
      List.insertionSort pruneLE l ++ [x] := by
  induction l with
  | nil => rfl
  | cons a l ih =>
      rw [List.cons_append]
      show List.orderedInsert pruneLE a (List.insertionSort pruneLE (l ++ [x])) =
        List.orderedInsert pruneLE a (List.insertionSort pruneLE l) ++ [x]
      rw [ih (fun y hy => h y (List.mem_cons_of_mem _ hy)),
        orderedInsert_append_last a x _ (h a (List.mem_cons_self _ _))]

/-- After `jsMapSet` and the conditional prune of `recordAccess`, the
entry just written is still present: the pruning never evicts it. -/
theorem setThenPrune_present (m : JsMap RecencyEntry) (key : String)
    (e : RecencyEntry) (hwf : JsMapWF m) (hsize : m.length ≤ MAX_ENTRIES)
    (htimes : ∀ kv ∈ m, kv.2.lastAccessed ≤ e.lastAccessed) :
    jsMapGet (if MAX_ENTRIES < (jsMapSet m key e).length
      then prune (jsMapSet m key e) else jsMapSet m key e) key = some e := by
  by_cases hmem : key ∈ m.map Prod.fst
  · have hlen := jsMapSet_length_of_mem m key e hmem
    rw [if_neg (by rw [hlen]; omega)]
    exact jsMapGet_set_self m key e
  · have happ := jsMapSet_append_of_not_mem m key e hmem
    have hlen' : (jsMapSet m key e).length = m.length + 1 := by
      rw [happ]
      simp
    by_cases hover : MAX_ENTRIES < m.length + 1
    · rw [if_pos (by rw [hlen']; exact hover)]
      have hm1000 : m.length = MAX_ENTRIES := Nat.le_antisymm hsize (by omega)
      have hwf' : JsMapWF (jsMapSet m key e) := jsMapSet_wf _ _ _ hwf
      have hsorted : List.insertionSort pruneLE (jsMapSet m key e) =
          List.insertionSort pruneLE m ++ [(key, e)] := by
        rw [happ]
        exact insertionSort_append_last m (key, e) fun y hy => htimes y hy
      have hperm : List.Perm (List.insertionSort pruneLE m) m :=
        List.perm_insertionSort pruneLE m
      have hslen : (List.insertionSort pruneLE m).length = m.length :=
        hperm.length_eq
      have hKval : (List.insertionSort pruneLE (jsMapSet m key e)).length -
          MAX_ENTRIES = 1 := by
        rw [hsorted, List.length_append, hslen, hm1000,
          List.length_singleton]
        omega
      have htake : (List.insertionSort pruneLE (jsMapSet m key e)).take
          ((List.insertionSort pruneLE (jsMapSet m key e)).length -
            MAX_ENTRIES) = (List.insertionSort pruneLE m).take 1 := by
        rw [hKval, hsorted, List.take_append_eq_append_take,
          Nat.sub_eq_zero_of_le (by rw [hslen, hm1000]; decide),
          List.take_zero, List.append_nil]
      have hkeynot : key ∉ ((List.insertionSort pruneLE m).take 1).map
          Prod.fst := by
        intro hk
        obtain ⟨kv, hkv, hkeq⟩ := List.mem_map.mp hk
        apply hmem
        have hkvm : kv ∈ m := hperm.mem_iff.mp (List.take_subset _ _ hkv)
        exact hkeq ▸ List.mem_map.mpr ⟨kv, hkvm, rfl⟩
      have hpr : prune (jsMapSet m key e) =
          (jsMapSet m key e).filter (fun kv =>
            !((((List.insertionSort pruneLE m).take 1).map
              Prod.fst).contains kv.1)) := by
        unfold prune
        dsimp only
        rw [foldl_delete_eq_filter _ _ hwf', htake]
      rw [hpr]
      have hkeymem : (key, e) ∈ jsMapSet m key e := by
        rw [happ]
        exact List.mem_append_right _ (List.mem_singleton.mpr rfl)
      have hpred : (!((((List.insertionSort pruneLE m).take 1).map
          Prod.fst).contains key)) = true := by
        simpa [contains_eq_decide_mem] using hkeynot
      exact jsMapGet_eq_some_of_mem_wf (filter_wf _ _ hwf')
        (List.mem_filter.mpr ⟨hkeymem, hpred⟩)
    · rw [if_neg (by rw [hlen']; exact hover)]
      exact jsMapGet_set_self m key e

/-- C10: immediately after `recordAccess` returns — starting from a
well-formed map within the cap whose stored timestamps do not exceed the
call's `Date.now()` — the entry for the computed key is present with
`lastAccessed` equal to the call time and `accessCount` at least 1; in
particular the pruning that the same call may trigger never evicts the
entry just recorded. -/
theorem recordAccess_entry_present (m : JsMap RecencyEntry)
    (filePath : String) (symbolName : Option String) (now : Nat)
    (hwf : JsMapWF m) (hsize : m.length ≤ MAX_ENTRIES)
    (htimes : ∀ kv ∈ m, kv.2.lastAccessed ≤ now) :
    ∃ e, jsMapGet (recordAccess m filePath symbolName now)
        (entryKey filePath symbolName) = some e ∧
      e.lastAccessed = now ∧ 1 ≤ e.accessCount := by
  refine ⟨⟨((jsMapGet m (entryKey filePath symbolName)).getD
      ⟨filePath, 0, 0⟩).path, now,
    ((jsMapGet m (entryKey filePath symbolName)).getD
      ⟨filePath, 0, 0⟩).accessCount + 1⟩,
    ?_, rfl, Nat.succ_le_succ (Nat.zero_le _)⟩
  exact setThenPrune_present m (entryKey filePath symbolName) _ hwf hsize
    fun kv hkv => htimes kv hkv

/-- Witness for C10 at a concrete call on the empty map. -/
theorem recordAccess_entry_present_witness :
    ∃ e, jsMapGet (recordAccess [] "src/a.ts" (some "Foo") 7)
        (entryKey "src/a.ts" (some "Foo")) = some e ∧
      e.lastAccessed = 7 ∧ 1 ≤ e.accessCount :=
  recordAccess_entry_present [] "src/a.ts" (some "Foo") 7
    List.Pairwise.nil (by decide) (by simp)

end RecencyTracker

/-! ### getScore (`recency-tracker.ts`, lines 90–120)

The score is computed with JavaScript floating-point arithmetic; it is
modelled here over `ℝ`, with `Math.pow` as the real power and
`Math.round(x * 10) / 10` as `⌊x * 10 + 1/2⌋ / 10`. -/

/-- The `RECENCY_WEIGHT` constant of `recency-tracker.ts`. -/
noncomputable def RECENCY_WEIGHT : ℝ := 0.7

/-- The `DECAY_FACTOR` constant of `recency-tracker.ts`. -/
noncomputable def DECAY_FACTOR : ℝ := 0.9

/-- The `MAX_SCORE` constant of `recency-tracker.ts`. -/
noncomputable def MAX_SCORE : ℝ := 100

/-- JavaScript `Math.round(x * 10) / 10` (`Math.round` rounds half
towards positive infinity). -/
noncomputable def jsRound1 (x : ℝ) : ℝ := (⌊x * 10 + 1 / 2⌋ : ℤ) / 10

/-- The `SymbolScore` result shape of `getScore`. -/
structure SymbolScore : Type where
  score : ℝ
  lastAccessed : Nat
  accessCount : Nat

namespace RecencyTracker

/-- The unrounded score `getScore` computes for a stored entry at time
`now`: `ageInHours`, the decayed recency component, the capped frequency
component, and their 70/30 combination. -/
noncomputable def entryScore (e : RecencyEntry) (now : Nat) : ℝ :=
  let ageInHours : ℝ := ((now : ℝ) - (e.lastAccessed : ℝ)) / (1000 * 60 * 60)
  let recencyScore : ℝ := DECAY_FACTOR ^ min ageInHours 48 * MAX_SCORE
  let frequencyScore : ℝ := min (e.accessCount : ℝ) 50 * (MAX_SCORE / 50)
  RECENCY_WEIGHT * recencyScore + (1 - RECENCY_WEIGHT) * frequencyScore

/-- `getScore(filePath, symbolName?)` at time `now` over the entry map:
a missing entry yields the zero score, a stored entry the rounded
combined score together with its fields. -/
noncomputable def getScore (m : JsMap RecencyEntry) (now : Nat)
    (filePath : String) (symbolName : Option String) : SymbolScore :=
  match jsMapGet m (entryKey filePath symbolName) with
  | none => ⟨0, 0, 0⟩
  | some e => ⟨jsRound1 (entryScore e now), e.lastAccessed, e.accessCount⟩

theorem jsRound1_mono {x y : ℝ} (h : x ≤ y) : jsRound1 x ≤ jsRound1 y := by
  unfold jsRound1
  have h1 : (⌊x * 10 + 1 / 2⌋ : ℤ) ≤ ⌊y * 10 + 1 / 2⌋ :=
    Int.floor_mono (by linarith)
  have h2 : ((⌊x * 10 + 1 / 2⌋ : ℤ) : ℝ) ≤ ((⌊y * 10 + 1 / 2⌋ : ℤ) : ℝ) :=
    Int.cast_le.mpr h1
  linarith

/-- C2: for every stored entry and `now ≥ lastAccessed`, `getScore`
returns `0.7 * 0.9 ^ min((now − lastAccessed)/3600000, 48) * 100 +
0.3 * min(accessCount, 50) * 2` rounded to one decimal place, together
with the entry's `lastAccessed` and `accessCount`; for every key with no
stored entry, it returns the zero score `⟨0, 0, 0⟩`. -/
theorem getScore_formula :
    (∀ (m : JsMap RecencyEntry) (now : Nat) (fp : String)
        (sym : Option String) (e : RecencyEntry),
      jsMapGet m (entryKey fp sym) = some e → e.lastAccessed ≤ now →
      getScore m now fp sym =
        ⟨jsRound1 (0.7 * (0.9 : ℝ) ^
            min (((now : ℝ) - (e.lastAccessed : ℝ)) / 3600000) 48 * 100 +
          0.3 * min (e.accessCount : ℝ) 50 * 2),
          e.lastAccessed, e.accessCount⟩) ∧
    (∀ (m : JsMap RecencyEntry) (now : Nat) (fp : String)
        (sym : Option String),
      jsMapGet m (entryKey fp sym) = none →
      getScore m now fp sym = ⟨0, 0, 0⟩) := by
  constructor
  · intro m now fp sym e hget _
    unfold getScore
    simp only [hget]
    have harg : entryScore e now =
        0.7 * (0.9 : ℝ) ^
            min (((now : ℝ) - (e.lastAccessed : ℝ)) / 3600000) 48 * 100 +
          0.3 * min (e.accessCount : ℝ) 50 * 2 := by
      unfold entryScore RECENCY_WEIGHT DECAY_FACTOR MAX_SCORE
      norm_num
      ring
    rw [harg]
  · intro m now fp sym hget
    unfold getScore
    simp only [hget]

/-- Witness for C2 at a concrete map, entry and time. -/
theorem getScore_formula_witness :
    getScore [("src/a.ts#Foo", ⟨"src/a.ts", 0, 1⟩)] 5 "src/a.ts"
        (some "Foo") =
      ⟨jsRound1 (0.7 * (0.9 : ℝ) ^
          min (((5 : ℕ) - ((0 : ℕ) : ℝ)) / 3600000) 48 * 100 +
        0.3 * min (((1 : ℕ) : ℝ)) 50 * 2), 0, 1⟩ :=
  getScore_formula.1 [("src/a.ts#Foo", ⟨"src/a.ts", 0, 1⟩)] 5 "src/a.ts"
    (some "Foo") ⟨"src/a.ts", 0, 1⟩ rfl (by decide)

theorem entryScore_age_mono (e : RecencyEntry) {now₁ now₂ : Nat}
    (h : now₁ ≤ now₂) : entryScore e now₂ ≤ entryScore e now₁ := by
  unfold entryScore RECENCY_WEIGHT DECAY_FACTOR MAX_SCORE
  dsimp only
  have hage : ((now₁ : ℝ) - (e.lastAccessed : ℝ)) / (1000 * 60 * 60) ≤
      ((now₂ : ℝ) - (e.lastAccessed : ℝ)) / (1000 * 60 * 60) := by
    have hc : ((now₁ : ℝ)) ≤ (now₂ : ℝ) := Nat.cast_le.mpr h
    have hnum : (now₁ : ℝ) - (e.lastAccessed : ℝ) ≤
        (now₂ : ℝ) - (e.lastAccessed : ℝ) := by linarith
    gcongr
  have hpow : (0.9 : ℝ) ^
        min (((now₂ : ℝ) - (e.lastAccessed : ℝ)) / (1000 * 60 * 60)) 48 ≤
      (0.9 : ℝ) ^
        min (((now₁ : ℝ) - (e.lastAccessed : ℝ)) / (1000 * 60 * 60)) 48 :=
    Real.rpow_le_rpow_of_exponent_ge (by norm_num) (by norm_num)
      (min_le_min hage (le_refl _))
  linarith [hpow]

theorem entryScore_count_mono {e₁ e₂ : RecencyEntry} (now : Nat)
    (hlast : e₁.lastAccessed = e₂.lastAccessed)
    (hcnt : e₁.accessCount ≤ e₂.accessCount) :
    entryScore e₁ now ≤ entryScore e₂ now := by
  unfold entryScore RECENCY_WEIGHT DECAY_FACTOR MAX_SCORE
  dsimp only
  rw [hlast]
  have hmin : min ((e₁.accessCount : ℝ)) 50 ≤ min ((e₂.accessCount : ℝ)) 50 :=
    min_le_min (Nat.cast_le.mpr hcnt) (le_refl _)
  linarith [hmin]

theorem entryScore_age_saturated (e : RecencyEntry) {now₁ now₂ : Nat}
    (h₁ : e.lastAccessed + 48 * 3600000 ≤ now₁)
    (h₂ : e.lastAccessed + 48 * 3600000 ≤ now₂) :
    entryScore e now₁ = entryScore e now₂ := by
  have hsat : ∀ {now : Nat}, e.lastAccessed + 48 * 3600000 ≤ now →
      min (((now : ℝ) - (e.lastAccessed : ℝ)) / (1000 * 60 * 60)) 48 = 48 := by
    intro now hnow
    apply min_eq_right
    rw [le_div_iff (by norm_num : (0 : ℝ) < 1000 * 60 * 60)]
    have hcast : ((e.lastAccessed + 48 * 3600000 : ℕ) : ℝ) ≤ (now : ℝ) :=
      Nat.cast_le.mpr hnow
    push_cast at hcast
    linarith
  unfold entryScore
  dsimp only
  rw [hsat h₁, hsat h₂]

theorem entryScore_count_saturated {e₁ e₂ : RecencyEntry} (now : Nat)
    (hlast : e₁.lastAccessed = e₂.lastAccessed)
    (h₁ : 50 ≤ e₁.accessCount) (h₂ : 50 ≤ e₂.accessCount) :
    entryScore e₁ now = entryScore e₂ now := by
  unfold entryScore
  dsimp only
  rw [hlast, min_eq_right (by exact_mod_cast h₁ : (50 : ℝ) ≤ e₁.accessCount),
    min_eq_right (by exact_mod_cast h₂ : (50 : ℝ) ≤ e₂.accessCount)]

/-- C9: the score `getScore` returns is monotonically non-increasing in
the age `now − lastAccessed` for fixed `accessCount`, monotonically
non-decreasing in `accessCount` for fixed timestamps, and constant
beyond the saturation points of 48 hours of age and 50 accesses. -/
theorem getScore_monotone :
    (∀ (m : JsMap RecencyEntry) (fp : String) (sym : Option String)
        (e : RecencyEntry) (now₁ now₂ : Nat),
      jsMapGet m (entryKey fp sym) = some e → now₁ ≤ now₂ →
      (getScore m now₂ fp sym).score ≤ (getScore m now₁ fp sym).score) ∧
    (∀ (m₁ m₂ : JsMap RecencyEntry) (fp : String) (sym : Option String)
        (e₁ e₂ : RecencyEntry) (now : Nat),
      jsMapGet m₁ (entryKey fp sym) = some e₁ →
      jsMapGet m₂ (entryKey fp sym) = some e₂ →
      e₁.lastAccessed = e₂.lastAccessed → e₁.accessCount ≤ e₂.accessCount →
      (getScore m₁ now fp sym).score ≤ (getScore m₂ now fp sym).score) ∧
    (∀ (m : JsMap RecencyEntry) (fp : String) (sym : Option String)
        (e : RecencyEntry) (now₁ now₂ : Nat),
      jsMapGet m (entryKey fp sym) = some e →
      e.lastAccessed + 48 * 3600000 ≤ now₁ →
      e.lastAccessed + 48 * 3600000 ≤ now₂ →
      (getScore m now₁ fp sym).score = (getScore m now₂ fp sym).score) ∧
    (∀ (m₁ m₂ : JsMap RecencyEntry) (fp : String) (sym : Option String)
        (e₁ e₂ : RecencyEntry) (now : Nat),
      jsMapGet m₁ (entryKey fp sym) = some e₁ →
      jsMapGet m₂ (entryKey fp sym) = some e₂ →
      e₁.lastAccessed = e₂.lastAccessed →
      50 ≤ e₁.accessCount → 50 ≤ e₂.accessCount →
      (getScore m₁ now fp sym).score = (getScore m₂ now fp sym).score) := by
  refine ⟨?_, ?_, ?_, ?_⟩
  · intro m fp sym e now₁ now₂ hget h
    unfold getScore
    simp only [hget]
    exact jsRound1_mono (entryScore_age_mono e h)
  · intro m₁ m₂ fp sym e₁ e₂ now hget₁ hget₂ hlast hcnt
    unfold getScore
    simp only [hget₁, hget₂]
    exact jsRound1_mono (entryScore_count_mono now hlast hcnt)
  · intro m fp sym e now₁ now₂ hget h₁ h₂
    unfold getScore
    simp only [hget]
    exact congrArg jsRound1 (entryScore_age_saturated e h₁ h₂)
  · intro m₁ m₂ fp sym e₁ e₂ now hget₁ hget₂ hlast h₁ h₂
    unfold getScore
    simp only [hget₁, hget₂]
    exact congrArg jsRound1 (entryScore_count_saturated now hlast h₁ h₂)

/-- Witness for C9 at a concrete map, entry and pair of times. -/
theorem getScore_monotone_witness :
    (getScore [("src/a.ts#Foo", ⟨"src/a.ts", 0, 1⟩)] 9 "src/a.ts"
        (some "Foo")).score ≤
      (getScore [("src/a.ts#Foo", ⟨"src/a.ts", 0, 1⟩)] 2 "src/a.ts"
        (some "Foo")).score :=
  getScore_monotone.1 [("src/a.ts#Foo", ⟨"src/a.ts", 0, 1⟩)] "src/a.ts"
    (some "Foo") ⟨"src/a.ts", 0, 1⟩ 2 9 rfl (by decide)

end RecencyTracker

/-! ### Ranking pipeline (`src/commands/search-symbols.ts` and
`src/commands/searchSymbols.ts`)

The quick-pick items and the fuzzy/recency numbers are modelled over
`ℚ` (exact arithmetic in place of JavaScript doubles); the fuzzy
matcher is an external collaborator, so its result list
`[{item, score}]` is an input of the handler model.  Note `ℚ` division
models `x / 0` as `0` where JavaScript produces `NaN`. -/

/-- A `SymbolQuickPickItem` of `search-symbols.ts`. -/
structure SymbolQuickPickItem : Type where
  label : String
  description : String
  file : String
  line : Nat
  score : ℚ
  startColumn : Nat
  endColumn : Nat
deriving DecidableEq, Repr

/-- JavaScript `a.localeCompare(b)` modelled as code-point order:
a negative, zero or positive number. -/
def localeCompareVal (a b : String) : ℚ :=
  if a < b then -1 else if a = b then 0 else 1

/-- `compareSymbolQuickPickItems` (`search-symbols.ts`, lines 292–317):
score descending, then label, description and line ascending (the
source's `|| 0` fallbacks are identities here since every field is
present). -/
def compareSymbolQuickPickItems (a b : SymbolQuickPickItem) : ℚ :=
  if b.score ≠ a.score then b.score - a.score
  else if a.label ≠ b.label then localeCompareVal a.label b.label
  else if a.description ≠ b.description then
    localeCompareVal a.description b.description
  else (a.line : ℚ) - (b.line : ℚ)

/-- JavaScript `Array.prototype.sort(compareSymbolQuickPickItems)`:
stable and ascending in the comparator, i.e. `a` is placed before `b`
whenever `compareSymbolQuickPickItems a b ≤ 0`. -/
def jsSortByCompare (l : List SymbolQuickPickItem) :
    List SymbolQuickPickItem :=
  List.insertionSort (fun a b => compareSymbolQuickPickItems a b ≤ 0) l

/-- `Math.max(...results.map(r => r.score))` (the handlers only reach it
on a non-empty result list). -/
def maxFzfScore : List ℚ → ℚ
  | [] => 0
  | x :: xs => xs.foldl max x

/-- The `onDidChangeValue` handler of `search-symbols.ts`
(lines 197–233): if the fuzzy matcher returned nothing, show nothing;
otherwise normalize each fuzzy score against the maximum, combine
60 % fuzzy / 40 % recency, and stable-sort with
`compareSymbolQuickPickItems`.  The handler has no special case for an
empty filter string — `value` is used only for last-command
bookkeeping. -/
def onDidChangeValueOMN (value : String)
    (results : List (SymbolQuickPickItem × ℚ)) : List SymbolQuickPickItem :=
  if results.isEmpty then []
  else
    let maxScore := maxFzfScore (results.map Prod.snd)
    let enrichedResults := results.map (fun result =>
      let recencyScore := result.1.score
      let normalizedFzfScore := (result.2 / maxScore) * 100
      let combinedScore := normalizedFzfScore * 0.6 + recencyScore * 0.4
      { result.1 with score := combinedScore })
    jsSortByCompare enrichedResults

/-- The `onDidChangeValue` handler of the older `searchSymbols.ts`
(lines 206–248): an empty filter string reverts to the unfiltered
`itemsForSearch`; otherwise the same enrichment as above, sorted by
combined score descending only (`(a, b) => (b.score ?? 0) - (a.score ?? 0)`). -/
def onDidChangeValueOlly (value : String)
    (results : List (SymbolQuickPickItem × ℚ))
    (itemsForSearch : List SymbolQuickPickItem) : List SymbolQuickPickItem :=
  if value = "" then itemsForSearch
  else if results.isEmpty then []
  else
    let maxScore := maxFzfScore (results.map Prod.snd)
    let enrichedResults := results.map (fun result =>
      let recencyScore := result.1.score
      let normalizedFzfScore := (result.2 / maxScore) * 100
      let combinedScore := normalizedFzfScore * 0.6 + recencyScore * 0.4
      { result.1 with score := combinedScore })
    List.insertionSort (fun a b => b.score - a.score ≤ 0) enrichedResults

/-- The display order claimed for the ranked list: combined score
descending, ties broken by label (symbol name), then description
(relative file path), then line, ascending. -/
def rankedBefore (a b : SymbolQuickPickItem) : Prop :=
  b.score < a.score ∨ (b.score = a.score ∧
    (a.label < b.label ∨ (a.label = b.label ∧
      (a.description < b.description ∨ (a.description = b.description ∧
        a.line ≤ b.line)))))

theorem localeCompareVal_le_zero_iff {a b : String} (h : a ≠ b) :
    localeCompareVal a b ≤ 0 ↔ a < b := by
  unfold localeCompareVal
  by_cases hlt : a < b
  · rw [if_pos hlt]
    exact ⟨fun _ => hlt, fun _ => by norm_num⟩
  · rw [if_neg hlt, if_neg h]
    exact ⟨fun hc => by norm_num at hc, fun hc => absurd hc hlt⟩

theorem compare_le_zero_iff (a b : SymbolQuickPickItem) :
    compareSymbolQuickPickItems a b ≤ 0 ↔ rankedBefore a b := by
  unfold compareSymbolQuickPickItems rankedBefore
  by_cases hs : b.score ≠ a.score
  · rw [if_pos hs]
    constructor
    · intro h
      exact Or.inl (lt_of_le_of_ne (by linarith) hs)
    · rintro (h | ⟨heq, -⟩)
      · linarith
      · exact absurd heq hs
  · rw [if_neg hs]
    push_neg at hs
    by_cases hl : a.label ≠ b.label
    · rw [if_pos hl, localeCompareVal_le_zero_iff hl]
      constructor
      · intro h
        exact Or.inr ⟨hs, Or.inl h⟩
      · rintro (h | ⟨-, h | ⟨heq, -⟩⟩)
        · rw [hs] at h
          exact absurd h (lt_irrefl _)
        · exact h
        · exact absurd heq hl
    · rw [if_neg hl]
      push_neg at hl
      by_cases hd : a.description ≠ b.description
      · rw [if_pos hd, localeCompareVal_le_zero_iff hd]
        constructor
        · intro h
          exact Or.inr ⟨hs, Or.inr ⟨hl, Or.inl h⟩⟩
        · rintro (h | ⟨-, h | ⟨-, h | ⟨heq, -⟩⟩⟩)
          · rw [hs] at h
            exact absurd h (lt_irrefl _)
          · rw [hl] at h
            exact absurd h (lt_irrefl _)
          · exact h
          · exact absurd heq hd
      · rw [if_neg hd]
        push_neg at hd
        constructor
        · intro h
          have : a.line ≤ b.line := by
            have := sub_nonpos.mp h
            exact_mod_cast this
          exact Or.inr ⟨hs, Or.inr ⟨hl, Or.inr ⟨hd, this⟩⟩⟩
        · rintro (h | ⟨-, h | ⟨-, h | ⟨-, h⟩⟩⟩)
          · rw [hs] at h
            exact absurd h (lt_irrefl _)
          · rw [hl] at h
            exact absurd h (lt_irrefl _)
          · rw [hd] at h
            exact absurd h (lt_irrefl _)
          · rw [sub_nonpos]
            exact_mod_cast h

theorem rankedBefore_total (a b : SymbolQuickPickItem) :
    rankedBefore a b ∨ rankedBefore b a := by
  unfold rankedBefore
  by_cases hs : a.score = b.score
  · by_cases hl : a.label = b.label
    · by_cases hd : a.description = b.description
      · rcases Nat.le_total a.line b.line with h | h
        · exact Or.inl (Or.inr ⟨hs.symm, Or.inr ⟨hl, Or.inr ⟨hd, h⟩⟩⟩)
        · exact Or.inr (Or.inr ⟨hs, Or.inr ⟨hl.symm, Or.inr ⟨hd.symm, h⟩⟩⟩)
      · rcases lt_or_gt_of_ne hd with h | h
        · exact Or.inl (Or.inr ⟨hs.symm, Or.inr ⟨hl, Or.inl h⟩⟩)
        · exact Or.inr (Or.inr ⟨hs, Or.inr ⟨hl.symm, Or.inl h⟩⟩)
    · rcases lt_or_gt_of_ne hl with h | h
      · exact Or.inl (Or.inr ⟨hs.symm, Or.inl h⟩)
      · exact Or.inr (Or.inr ⟨hs, Or.inl h⟩)
  · rcases lt_or_gt_of_ne hs with h | h
    · exact Or.inr (Or.inl h)
    · exact Or.inl (Or.inl h)

theorem rankedBefore_trans (a b c : SymbolQuickPickItem)
    (hab : rankedBefore a b) (hbc : rankedBefore b c) :
    rankedBefore a c := by
  unfold rankedBefore at hab hbc ⊢
  rcases hab with h1 | ⟨e1, h1⟩
  · rcases hbc with h2 | ⟨e2, -⟩
    · exact Or.inl (lt_trans h2 h1)
    · exact Or.inl (by rw [e2]; exact h1)
  · rcases hbc with h2 | ⟨e2, h2⟩
    · exact Or.inl (by rw [← e1]; exact h2)
    · refine Or.inr ⟨by rw [e2, e1], ?_⟩
      rcases h1 with l1 | ⟨el1, h1⟩
      · rcases h2 with l2 | ⟨el2, -⟩
        · exact Or.inl (lt_trans l1 l2)
        · exact Or.inl (by rw [← el2]; exact l1)
      · rcases h2 with l2 | ⟨el2, h2⟩
        · exact Or.inl (by rw [el1]; exact l2)
        · refine Or.inr ⟨el1.trans el2, ?_⟩
          rcases h1 with d1 | ⟨ed1, h1⟩
          · rcases h2 with d2 | ⟨ed2, -⟩
            · exact Or.inl (lt_trans d1 d2)
            · exact Or.inl (by rw [← ed2]; exact d1)
          · rcases h2 with d2 | ⟨ed2, h2⟩
            · exact Or.inl (by rw [ed1]; exact d2)
            · exact Or.inr ⟨ed1.trans ed2, le_trans h1 h2⟩

/-- Concrete candidate for the C3 example: fuzzy score 100, recency 0. -/
def c3ItemA : SymbolQuickPickItem := ⟨"alpha", "a.ts", "a.ts", 1, 0, 1, 2⟩

/-- Concrete candidate for the C3 example: fuzzy score 50, recency 100. -/
def c3ItemB : SymbolQuickPickItem := ⟨"beta", "b.ts", "b.ts", 1, 100, 1, 2⟩

/-- C3: on a non-empty filter whose fuzzy results have positive maximal
score (fzf assigns positive scores to matches of a non-empty pattern),
the displayed list is a permutation of the candidates re-scored to
`0.6 * (fzfScore / maxFzfScore * 100) + 0.4 * recencyScore` and is
sorted by combined score descending with ties broken by label, then
description (relative file path), then line, ascending; in particular,
for candidates with fuzzy scores 100 and 50 and recency scores 0 and
100, the combined scores are 60 and 70 and the second ranks first. -/
theorem onDidChangeValueOMN_ranking :
    (∀ (value : String) (results : List (SymbolQuickPickItem × ℚ)),
      results ≠ [] → 0 < maxFzfScore (results.map Prod.snd) →
      List.Perm (onDidChangeValueOMN value results)
          (results.map (fun r =>
            { r.1 with score :=
                0.6 * (r.2 / maxFzfScore (results.map Prod.snd) * 100) +
                  0.4 * r.1.score })) ∧
        List.Pairwise rankedBefore (onDidChangeValueOMN value results)) ∧
    (onDidChangeValueOMN "ab" [(c3ItemA, 100), (c3ItemB, 50)] =
      [{ c3ItemB with score := 70 }, { c3ItemA with score := 60 }]) := by
  constructor
  · intro value results hne _
    have hif : results.isEmpty = false := by simpa using hne
    constructor
    · unfold onDidChangeValueOMN
      rw [hif]
      dsimp only [Bool.false_eq_true, if_false]
      unfold jsSortByCompare
      refine (List.perm_insertionSort _ _).trans ?_
      rw [List.map_congr_left ?_]
      intro r _
      dsimp only
      congr 1
      ring
    · unfold onDidChangeValueOMN
      rw [hif]
      dsimp only [Bool.false_eq_true, if_false]
      unfold jsSortByCompare
      haveI : IsTotal SymbolQuickPickItem
          (fun a b => compareSymbolQuickPickItems a b ≤ 0) :=
        ⟨fun a b => by
          simp only [compare_le_zero_iff]
          exact rankedBefore_total a b⟩
      haveI : IsTrans SymbolQuickPickItem
          (fun a b => compareSymbolQuickPickItems a b ≤ 0) :=
        ⟨fun a b c hab hbc => by
          simp only [compare_le_zero_iff] at hab hbc ⊢
          exact rankedBefore_trans a b c hab hbc⟩
      have hs := List.sorted_insertionSort
        (fun a b => compareSymbolQuickPickItems a b ≤ 0)
        (results.map (fun result =>
          { result.1 with score :=
              (result.2 / maxFzfScore (results.map Prod.snd)) * 100 * 0.6 +
                result.1.score * 0.4 }))
      exact hs.imp fun h => (compare_le_zero_iff _ _).mp h
  · norm_num [onDidChangeValueOMN, jsSortByCompare, maxFzfScore, c3ItemA,
      c3ItemB, List.insertionSort, List.orderedInsert,
      compareSymbolQuickPickItems, localeCompareVal,
      SymbolQuickPickItem.mk.injEq]

/-- Witness for C3 at the concrete two-candidate input. -/
theorem onDidChangeValueOMN_ranking_witness :
    List.Perm (onDidChangeValueOMN "ab" [(c3ItemA, 100), (c3ItemB, 50)])
        ([(c3ItemA, (100 : ℚ)), (c3ItemB, 50)].map (fun r =>
          { r.1 with score :=
              0.6 * (r.2 /
                  maxFzfScore ([(c3ItemA, (100 : ℚ)),
                    (c3ItemB, 50)].map Prod.snd) * 100) +
                0.4 * r.1.score })) ∧
      List.Pairwise rankedBefore
        (onDidChangeValueOMN "ab" [(c3ItemA, 100), (c3ItemB, 50)]) :=
  onDidChangeValueOMN_ranking.1 "ab" [(c3ItemA, 100), (c3ItemB, 50)]
    (by decide) (by decide)

/-- Concrete item for the C8 counterexample: recency score 50. -/
def c8Item : SymbolQuickPickItem := ⟨"alpha", "a.ts", "a.ts", 1, 50, 1, 2⟩

/-- C8 counterexample: the `search-symbols.ts` filter handler does not
revert to the unfiltered list on an empty filter string — the empty
query's fuzzy results (fzf scores every item 0 on an empty pattern) go
through normalization and combined scoring, so the single displayed item
carries a combined score instead of its recency score.  (Over `ℚ` the
0/0 normalization is 0 and the item's score becomes 20; in JavaScript
it is NaN; under either convention the displayed list differs from the
unfiltered one.) -/
theorem onDidChangeValueOMN_empty_not_revert :
    onDidChangeValueOMN "" [(c8Item, 0)] ≠ [c8Item] := by
  norm_num [onDidChangeValueOMN, jsSortByCompare, maxFzfScore, c8Item,
    List.insertionSort, List.orderedInsert, SymbolQuickPickItem.mk.injEq]

/-- C8 (amended): the `searchSymbols.ts` filter handler reverts to the
unfiltered, recency-sorted `itemsForSearch` whenever the filter string
is empty, applying no fuzzy normalization or combined scoring; the
`search-symbols.ts` handler has no empty-string case — its output is
independent of the filter string, so the empty query is fed through the
fuzzy pipeline like any other. -/
theorem onDidChangeValue_empty_filter :
    (∀ (results : List (SymbolQuickPickItem × ℚ))
        (itemsForSearch : List SymbolQuickPickItem),
      onDidChangeValueOlly "" results itemsForSearch = itemsForSearch) ∧
    (∀ (v₁ v₂ : String) (results : List (SymbolQuickPickItem × ℚ)),
      onDidChangeValueOMN v₁ results = onDidChangeValueOMN v₂ results) := by
  constructor
  · intro results items
    unfold onDidChangeValueOlly
    rw [if_pos rfl]
  · intro v₁ v₂ results
    rfl

end OhMyNav
